import Mathlib

/-!
Shallow embedding of `source/synthDrivers/sapi5.py` (NVDA SAPI5 synth driver).

Two subsystems are modelled:

* the wave-out audio-ducking hooks (`ensureWaveOutHooks`, the interposed
  `waveOutOpen` / `waveOutClose` functions, and the `_duckersByHandle`
  registry), and
* the markup sequence compiler inside `SynthDriver.speak`, together with the
  helpers `_percentToPitch`, `_percentToRate` and `_convertPhoneme`.

Python `dict` is modelled as an insertion-ordered association list with unique
keys; `//` (floor division) as `Int.fdiv`; `int()` applied to a number as
truncation toward zero; a function that may raise as an `Option`-valued
function.
-/

namespace Sapi5

/-- Python dict assignment `d[k] = v`: replaces the value in place when the key
is present (keeping its position), otherwise appends the new binding at the
end, matching insertion-ordered dict semantics. -/
def dictSet {κ α : Type} [DecidableEq κ] (k : κ) (v : α) :
    List (κ × α) → List (κ × α)
  | [] => [(k, v)]
  | (k', v') :: rest =>
    if k' = k then (k, v) :: rest else (k', v') :: dictSet k v rest

/-- Python dict deletion `del d[k]` / `d.pop(k, None)`: removes the first
binding of the key (with unique keys, the only one); absent keys leave the
dict unchanged. -/
def dictDel {κ α : Type} [DecidableEq κ] (k : κ) :
    List (κ × α) → List (κ × α)
  | [] => []
  | (k', v') :: rest =>
    if k' = k then rest else (k', v') :: dictDel k rest

/-- Python dict lookup `d[k]` / `k in d`, as an optional value. -/
def dictGet {κ α : Type} [DecidableEq κ] (k : κ) :
    List (κ × α) → Option α
  | [] => none
  | (k', v') :: rest => if k' = k then some v' else dictGet k rest

/-- Keys of a modelled dict, in insertion order. -/
def dictKeys {κ α : Type} (d : List (κ × α)) : List κ := d.map Prod.fst

/-!  ## Pure attribute conversions (lines 239-240 and 285-286)  -/

/-- Embedding of `SynthDriver._percentToRate`:
`return (percent - 50) // 5` (Python floor division). -/
def percentToRate (percent : Int) : Int := (percent - 50).fdiv 5

/-- Embedding of `SynthDriver._percentToPitch`:
`return percent // 2 - 25` (Python floor division). -/
def percentToPitch (percent : Int) : Int := percent.fdiv 2 - 25

/-- Python `int()` applied to a rational number: truncation toward zero, as
performed by `int(pitch * item.multiplier)` and the like in `speak`. -/
def pyInt (q : ℚ) : Int := q.num.tdiv q.den

/-!  ## Audio ducking hook manager (lines 87-129)

The external collaborators (the real `winmm` functions, and
`audioDucking.AudioDucker`) are outside this repository; their observable
outcomes are passed in as explicit inputs: the real call either returns a raw
status value or raises a `WindowsError` carrying `winerror`, and
`AudioDucker.enable()` returns a boolean.  -/

/-- Outcome of invoking a real (un-hooked) winmm function: a normal return of
a raw status value, or a raised `WindowsError` whose `winerror` code the hook
captures. Python's `... or 0` maps a falsy raw return (`0`/`None`) to `0`;
with an integer status this is the identity, so the raw value is the status. -/
inductive RealCallResult : Type
  | returns (raw : Int)
  | raisesWinError (code : Int)
deriving DecidableEq, Repr

/-- Status value the hook computes from the real call: the plain return value
on a normal return, the captured `winerror` code when the call raised. -/
def RealCallResult.status : RealCallResult → Int
  | .returns raw => raw
  | .raisesWinError code => code

/-- A ducking session created by the intercepted open
(`d = audioDucking.AudioDucker()` followed by `d.enable()`); the field records
whether the `enable()` attempt reported success. -/
structure AudioDucker : Type where
  enableSucceeded : Bool
deriving DecidableEq, Repr

/-- The module-global `_duckersByHandle` registry: handle value to ducking
session. -/
abbrev DuckerRegistry : Type := List (Int × AudioDucker)

/-- Embedding of the interposed `waveOutOpen` (lines 90-107).  The real open
is invoked first (its outcome `realResult` and the pointed-to handle value
`pWaveOutHandle`, `none` for a null pointer, are inputs); on status `0` with a
non-null handle pointer a ducking session is created, its `enable()` attempted
(outcome `enableResult`), and the handle recorded in the registry regardless of
the enable outcome.  A raised `WindowsError` in the real call becomes the
returned status (`res = e.winerror`); the hook itself is total, so no
exception crosses the interposition boundary. -/
def waveOutOpenHook (realResult : RealCallResult) (pWaveOutHandle : Option Int)
    (enableResult : Bool) (reg : DuckerRegistry) : Int × DuckerRegistry :=
  let res := realResult.status
  match pWaveOutHandle with
  | some h =>
    if res = 0 then (res, dictSet h ⟨enableResult⟩ reg) else (res, reg)
  | none => (res, reg)

/-- Embedding of the interposed `waveOutClose` (lines 109-122).  The real
close is invoked first; on status `0` with a truthy (non-zero) handle, the
registry entry for the handle is popped with a `None` default, so removal of
an absent entry is a silent no-op. -/
def waveOutCloseHook (realResult : RealCallResult) (waveOutHandle : Int)
    (reg : DuckerRegistry) : Int × DuckerRegistry :=
  let res := realResult.status
  if res = 0 ∧ waveOutHandle ≠ 0 then (res, dictDel waveOutHandle reg)
  else (res, reg)

/-- One installed interposition (`FunctionHooker`), identified by the name of
the function it hooks. -/
structure FunctionHooker : Type where
  funcName : String
deriving DecidableEq, Repr

/-- The module-global `_waveOutHooks` list. -/
structure HookState : Type where
  waveOutHooks : List FunctionHooker
deriving DecidableEq, Repr

/-- Embedding of `ensureWaveOutHooks` (lines 124-129): only when the hook list
is empty and the platform reports ducking supported are the two hooks (over
`waveOutOpen` and `waveOutClose`) constructed and appended.  The second
component of the result is the list of hooks installed by this particular
call, the observable installation side effect. -/
def ensureWaveOutHooks (duckingSupported : Bool) (st : HookState) :
    HookState × List FunctionHooker :=
  if st.waveOutHooks = [] ∧ duckingSupported then
    let installed := [⟨"waveOutOpen"⟩, ⟨"waveOutClose"⟩]
    (⟨st.waveOutHooks ++ installed⟩, installed)
  else
    (st, [])

/-!  ## Phoneme conversion (`_convertPhoneme`, lines 288-310)  -/

/-- The `IPA_TO_SAPI` table (lines 288-291); `none` models the `KeyError`
raised by `self.IPA_TO_SAPI[ipaChar]` on a missing key (a `LookupError`). -/
def IPA_TO_SAPI (c : Char) : Option String :=
  if c = 'θ' then some "th"
  else if c = 's' then some "s"
  else none

/-- Loop body of `_convertPhoneme` (lines 298-307): state is the `out` list of
translated tokens together with the pending `outAfter` stress suffix; the
stress marker `ˈ` sets `outAfter` to `"1"` and continues; any other character
is looked up in the table (a missing entry aborts the whole translation with
`none`), appended to `out`, and a pending suffix is appended after it. -/
def convertPhonemeLoop :
    List String × Option String → List Char → Option (List String × Option String)
  | st, [] => some st
  | (out, outAfter), c :: rest =>
    if c = 'ˈ' then convertPhonemeLoop (out, some "1") rest
    else
      match IPA_TO_SAPI c with
      | none => none
      | some t =>
        let out' := match outAfter with
          | some a => out ++ [t] ++ [a]
          | none => out ++ [t]
        convertPhonemeLoop (out', none) rest

/-- Embedding of `SynthDriver._convertPhoneme` (lines 292-310). The voice
language is an input (the code reads `self.tts.voice.GetAttribute("language")`);
a language other than `"409"` raises `LookupError`, modelled as `none`.  After
the loop a still-pending stress suffix is appended (`if outAfter:
out.append(outAfter)`), and the tokens are joined with `" ".join(out)`. -/
def convertPhoneme (language : String) (ipa : List Char) : Option String :=
  if language ≠ "409" then none
  else
    match convertPhonemeLoop ([], none) ipa with
    | none => none
    | some (out, outAfter) =>
      let out' := match outAfter with
        | some a => out ++ [a]
        | none => out
      some (String.intercalate " " out')

/-!  ## The markup sequence compiler (`SynthDriver.speak`, lines 312-399)  -/

/-- The speech directives `speak` dispatches on (lines 342-391): plain
strings, the handled `SpeechCommand` subclasses, an acknowledged-but-ignored
`SpeechCommand` (such as `LangChangeCommand`, line 388), and an unknown item
(line 390). Multipliers are numbers; they are modelled as rationals. -/
inductive SpeechDirective : Type
  | text (s : String)
  | index (i : Int)
  | charMode (state : Bool)
  | brk (time : Int)
  | pitchCmd (multiplier : ℚ)
  | volumeCmd (multiplier : ℚ)
  | rateCmd (multiplier : ℚ)
  | phoneme (ipa : List Char) (text : String)
  | otherCommand
  | unknown
deriving DecidableEq, Repr

/-- One element appended to `textList`. Each constructor corresponds to one
shape of appended string in the source; `renderChunk` below recovers the exact
string. An open tag groups the pieces `"<%s" % tag`, the attribute pieces and
`">"` appended consecutively by `outputTags`. -/
inductive Chunk : Type
  | closeTag (name : String)
  | openTag (name : String) (attrs : List (String × Int))
  | literal (s : String)
  | bookmark (index : Int)
  | silence (msec : Int)
  | pron (sym : String) (text : String)
  | fallbackText (s : String)
deriving DecidableEq, Repr

/-- The exact string each chunk contributes to `textList`. -/
def renderChunk : Chunk → String
  | .closeTag n => "</" ++ n ++ ">"
  | .openTag n attrs =>
    "<" ++ n
      ++ String.join (attrs.map fun p => " " ++ p.1 ++ "=\"" ++ toString p.2 ++ "\"")
      ++ ">"
  | .literal s => s
  | .bookmark i => "<Bookmark Mark=\"" ++ toString i ++ "\" />"
  | .silence t => "<silence msec=\"" ++ toString t ++ "\" />"
  | .pron sym txt => "<pron sym=\"" ++ sym ++ "\">" ++ txt ++ "</pron>"
  | .fallbackText s => s

/-- Mutable state of the compiler loop: the `tags` dict (tag name to attribute
dict), the `tagsChanged` dirty flag, the `openedTags` list and the `textList`
accumulator. -/
structure SpeakState : Type where
  tags : List (String × List (String × Int))
  tagsChanged : Bool
  openedTags : List String
  textList : List Chunk
deriving DecidableEq, Repr

/-- Baseline parameters `speak` reads before the loop: `pitch = self._pitch`,
`rate = self.rate`, `volume = self.volume`, and the voice language consulted
by `_convertPhoneme`. -/
structure SpeakParams : Type where
  pitch : Int
  rate : Int
  volume : Int
  language : String
deriving DecidableEq, Repr

/-- Embedding of the inner `outputTags` function (lines 322-334): a no-op
unless the dirty flag is set; otherwise closes every opened tag in reverse
order, empties `openedTags`, emits an open tag for every entry of `tags` in
order (recording each in `openedTags`), and clears the dirty flag. -/
def outputTags (st : SpeakState) : SpeakState :=
  if st.tagsChanged then
    { tags := st.tags
      tagsChanged := false
      openedTags := dictKeys st.tags
      textList := st.textList
        ++ st.openedTags.reverse.map Chunk.closeTag
        ++ st.tags.map fun p => Chunk.openTag p.1 p.2 }
  else st

/-- Python `str.replace("<", "&lt;")` applied to literal text (line 345). -/
def escapeLt (s : String) : String := s.replace "<" "&lt;"

/-- One iteration of the `for item in speechSequence` loop (lines 342-391). -/
def processDirective (P : SpeakParams) (st : SpeakState) :
    SpeechDirective → SpeakState
  | .text s =>
    let st' := outputTags st
    { st' with textList := st'.textList ++ [Chunk.literal (escapeLt s)] }
  | .index i =>
    { st with textList := st.textList ++ [Chunk.bookmark i] }
  | .charMode state =>
    if state then
      { st with tags := dictSet "spell" [] st.tags, tagsChanged := true }
    else
      { st with tags := dictDel "spell" st.tags, tagsChanged := true }
  | .brk time =>
    { st with textList := st.textList ++ [Chunk.silence time] }
  | .pitchCmd m =>
    { st with
      tags := dictSet "pitch"
        [("absmiddle", percentToPitch (pyInt (P.pitch * m)))] st.tags
      tagsChanged := true }
  | .volumeCmd m =>
    if m = 1 then
      { st with tags := dictDel "volume" st.tags, tagsChanged := true }
    else
      { st with
        tags := dictSet "volume" [("level", pyInt (P.volume * m))] st.tags
        tagsChanged := true }
  | .rateCmd m =>
    if m = 1 then
      { st with tags := dictDel "rate" st.tags, tagsChanged := true }
    else
      { st with
        tags := dictSet "rate"
          [("absspeed", percentToRate (pyInt (P.rate * m)))] st.tags
        tagsChanged := true }
  | .phoneme ipa txt =>
    match convertPhoneme P.language ipa with
    | some sym =>
      { st with textList := st.textList ++ [Chunk.pron sym txt] }
    | none =>
      if txt ≠ "" then
        { st with textList := st.textList ++ [Chunk.fallbackText txt] }
      else st
  | .otherCommand => st
  | .unknown => st

/-- The whole `for` loop over the speech sequence. -/
def processSeq (P : SpeakParams) (st : SpeakState)
    (seq : List SpeechDirective) : SpeakState :=
  List.foldl (processDirective P) st seq

/-- State at loop entry (lines 318-338): empty `textList`, dirty flag set,
no opened tags, and `tags` holding the always-present pitch tag
`tags["pitch"] = ‹"absmiddle": percentToPitch(pitch)›`. -/
def initState (P : SpeakParams) : SpeakState :=
  { tags := [("pitch", [("absmiddle", percentToPitch P.pitch)])]
    tagsChanged := true
    openedTags := []
    textList := [] }

/-- Embedding of `SynthDriver.speak` as far as markup generation goes
(lines 312-397): run the loop, then `tags.clear()`, force the dirty flag and
flush once more so every remaining open tag is closed; the resulting chunk
list concatenates (via `renderChunk`) to the string passed to
`self.tts.Speak`. -/
def speakChunks (P : SpeakParams) (seq : List SpeechDirective) : List Chunk :=
  let st := processSeq P (initState P) seq
  (outputTags { st with tags := [], tagsChanged := true }).textList

/-- The markup string `text = "".join(textList)` (line 397). -/
def speakText (P : SpeakParams) (seq : List SpeechDirective) : String :=
  String.join ((speakChunks P seq).map renderChunk)

/-!  ## Dict lemmas  -/

theorem dictGet_dictSet {κ α : Type} [DecidableEq κ] (k : κ) (v : α)
    (d : List (κ × α)) : dictGet k (dictSet k v d) = some v := by
  induction d with
  | nil => simp [dictSet, dictGet]
  | cons p rest ih =>
    by_cases h : p.1 = k <;> simp [dictSet, dictGet, h, ih]

theorem dictGet_dictSet_ne {κ α : Type} [DecidableEq κ] {k k' : κ} (v : α)
    (d : List (κ × α)) (hne : k' ≠ k) :
    dictGet k' (dictSet k v d) = dictGet k' d := by
  induction d with
  | nil => simp [dictSet, dictGet, Ne.symm hne]
  | cons p rest ih =>
    by_cases h : p.1 = k
    · subst h
      simp [dictSet, dictGet, hne, Ne.symm hne]
    · by_cases h' : p.1 = k' <;> simp [dictSet, dictGet, h, h', hne, ih]

theorem dictDel_of_not_mem {κ α : Type} [DecidableEq κ] {k : κ}
    {d : List (κ × α)} (h : k ∉ dictKeys d) : dictDel k d = d := by
  induction d with
  | nil => rfl
  | cons p rest ih =>
    simp only [dictKeys, List.map_cons, List.mem_cons] at h
    push_neg at h
    simp [dictDel, Ne.symm h.1, ih h.2]

theorem dictKeys_dictDel_nodup {κ α : Type} [DecidableEq κ] (k : κ)
    {d : List (κ × α)} (hnd : (dictKeys d).Nodup) :
    k ∉ dictKeys (dictDel k d) := by
  induction d with
  | nil => simp [dictDel, dictKeys]
  | cons p rest ih =>
    simp only [dictKeys, List.map_cons, List.nodup_cons] at hnd
    by_cases h : p.1 = k
    · subst h
      simpa [dictDel, dictKeys] using hnd.1
    · intro hmem
      simp only [dictDel, if_neg h, dictKeys, List.map_cons, List.mem_cons]
        at hmem
      rcases hmem with hmem | hmem
      · exact h hmem.symm
      · exact ih hnd.2 hmem

theorem dictGet_of_not_mem {κ α : Type} [DecidableEq κ] {k : κ}
    {d : List (κ × α)} (h : k ∉ dictKeys d) : dictGet k d = none := by
  induction d with
  | nil => rfl
  | cons p rest ih =>
    simp only [dictKeys, List.map_cons, List.mem_cons] at h
    push_neg at h
    simp [dictGet, Ne.symm h.1, ih h.2]

theorem not_mem_dictKeys_dictSet {κ α : Type} [DecidableEq κ] {t k : κ}
    (v : α) {d : List (κ × α)} (hne : t ≠ k) (h : t ∉ dictKeys d) :
    t ∉ dictKeys (dictSet k v d) := by
  induction d with
  | nil => simp [dictSet, dictKeys, hne]
  | cons p rest ih =>
    simp only [dictKeys, List.map_cons, List.mem_cons] at h
    push_neg at h
    by_cases hk : p.1 = k
    · simp [dictSet, hk, dictKeys, hne, h.2]
    · simp only [dictSet, if_neg hk, dictKeys, List.map_cons, List.mem_cons]
      push_neg
      exact ⟨h.1, ih h.2⟩

theorem not_mem_dictKeys_dictDel {κ α : Type} [DecidableEq κ] {t : κ} (k : κ)
    {d : List (κ × α)} (h : t ∉ dictKeys d) : t ∉ dictKeys (dictDel k d) := by
  induction d with
  | nil => simp [dictDel, dictKeys]
  | cons p rest ih =>
    simp only [dictKeys, List.map_cons, List.mem_cons] at h
    push_neg at h
    by_cases hk : p.1 = k
    · simpa [dictDel, hk, dictKeys] using h.2
    · simp only [dictDel, if_neg hk, dictKeys, List.map_cons, List.mem_cons]
      push_neg
      exact ⟨h.1, ih h.2⟩

theorem dictKeys_dictSet_nodup {κ α : Type} [DecidableEq κ] {k : κ} (v : α)
    {d : List (κ × α)} (hnd : (dictKeys d).Nodup) :
    (dictKeys (dictSet k v d)).Nodup := by
  induction d with
  | nil => simp [dictSet, dictKeys]
  | cons p rest ih =>
    simp only [dictKeys, List.map_cons, List.nodup_cons] at hnd
    by_cases hk : p.1 = k
    · subst hk
      simpa [dictSet, dictKeys] using hnd
    · simp only [dictSet, if_neg hk, dictKeys, List.map_cons, List.nodup_cons]
      exact ⟨not_mem_dictKeys_dictSet v hk hnd.1, ih hnd.2⟩

theorem dictKeys_dictDel_nodup_preserve {κ α : Type} [DecidableEq κ] {k : κ}
    {d : List (κ × α)} (hnd : (dictKeys d).Nodup) :
    (dictKeys (dictDel k d)).Nodup := by
  induction d with
  | nil => simp [dictDel, dictKeys]
  | cons p rest ih =>
    simp only [dictKeys, List.map_cons, List.nodup_cons] at hnd
    by_cases hk : p.1 = k
    · simpa [dictDel, hk, dictKeys] using hnd.2
    · simp only [dictDel, if_neg hk, dictKeys, List.map_cons, List.nodup_cons]
      exact ⟨not_mem_dictKeys_dictDel k hnd.1, ih hnd.2⟩

theorem dictDel_dictSet_of_not_mem {κ α : Type} [DecidableEq κ] {k : κ}
    (v : α) {d : List (κ × α)} (h : k ∉ dictKeys d) :
    dictDel k (dictSet k v d) = d := by
  induction d with
  | nil => simp [dictSet, dictDel]
  | cons p rest ih =>
    simp only [dictKeys, List.map_cons, List.mem_cons] at h
    push_neg at h
    simp [dictSet, dictDel, Ne.symm h.1, ih h.2]

/-!  ## Tag-occurrence predicates over chunks and directives  -/

/-- Whether a chunk is an opening tag named `t`. -/
def opensTag (t : String) : Chunk → Bool
  | .openTag n _ => n = t
  | _ => false

/-- Whether a chunk is a closing tag named `t`. -/
def closesTag (t : String) : Chunk → Bool
  | .closeTag n => n = t
  | _ => false

/-- Whether a directive can insert the tag `t` into the `tags` dict: only
`CharacterModeCommand(True)` inserts `"spell"`, a `PitchCommand` inserts
`"pitch"`, and `VolumeCommand`/`RateCommand` with multiplier other than 1
insert `"volume"`/`"rate"`; every other directive at most deletes entries. -/
def canSetTag (t : String) : SpeechDirective → Bool
  | .charMode s => s && t = "spell"
  | .pitchCmd _ => t = "pitch"
  | .volumeCmd m => decide (m ≠ 1) && t = "volume"
  | .rateCmd m => decide (m ≠ 1) && t = "rate"
  | _ => false

/-- Whether a directive mutates the tag state and sets the dirty flag:
exactly the character-mode, pitch, volume and rate commands. -/
def isStateChanging : SpeechDirective → Bool
  | .charMode _ => true
  | .pitchCmd _ => true
  | .volumeCmd _ => true
  | .rateCmd _ => true
  | _ => false

/-!  ## Basic facts about outputTags and processDirective  -/

theorem outputTags_tags (st : SpeakState) : (outputTags st).tags = st.tags := by
  unfold outputTags
  split <;> rfl

theorem outputTags_tagsChanged (st : SpeakState) :
    (outputTags st).tagsChanged = false := by
  by_cases h : st.tagsChanged <;> simp [outputTags, h]

theorem outputTags_of_not_changed {st : SpeakState}
    (h : st.tagsChanged = false) : outputTags st = st := by
  simp [outputTags, h]

theorem processDirective_text_tagsChanged (P : SpeakParams) (st : SpeakState)
    (s : String) : (processDirective P st (.text s)).tagsChanged = false := by
  simp [processDirective, outputTags_tagsChanged]

theorem processDirective_tags_nodup (P : SpeakParams) (st : SpeakState)
    (d : SpeechDirective) (hnd : (dictKeys st.tags).Nodup) :
    (dictKeys (processDirective P st d).tags).Nodup := by
  cases d with
  | text s => simpa [processDirective, outputTags_tags] using hnd
  | index i => exact hnd
  | charMode b =>
    cases b <;>
      simp [processDirective, dictKeys_dictSet_nodup,
        dictKeys_dictDel_nodup_preserve, hnd]
  | brk t => exact hnd
  | pitchCmd m => simpa [processDirective] using dictKeys_dictSet_nodup _ hnd
  | volumeCmd m =>
    by_cases hm : m = 1 <;>
      simp [processDirective, hm, dictKeys_dictSet_nodup,
        dictKeys_dictDel_nodup_preserve, hnd]
  | rateCmd m =>
    by_cases hm : m = 1 <;>
      simp [processDirective, hm, dictKeys_dictSet_nodup,
        dictKeys_dictDel_nodup_preserve, hnd]
  | phoneme ipa txt =>
    simp only [processDirective]
    cases convertPhoneme P.language ipa <;> simp [hnd]
    split <;> simpa
  | otherCommand => exact hnd
  | unknown => exact hnd

theorem processSeq_tags_nodup (P : SpeakParams) (seq : List SpeechDirective)
    (st : SpeakState) (hnd : (dictKeys st.tags).Nodup) :
    (dictKeys (processSeq P st seq).tags).Nodup := by
  induction seq generalizing st with
  | nil => exact hnd
  | cons d rest ih =>
    exact ih _ (processDirective_tags_nodup P st d hnd)

/-!  ## Occurrence counting through outputTags and the loop  -/

theorem countP_opensTag_closes (t : String) (l : List String) :
    (l.map Chunk.closeTag).countP (opensTag t) = 0 := by
  refine List.countP_eq_zero.mpr ?_
  intro c hc
  rcases List.mem_map.mp hc with ⟨n, _, rfl⟩
  simp [opensTag]

theorem countP_closesTag_opens (t : String)
    (d : List (String × List (String × Int))) :
    (d.map fun p => Chunk.openTag p.1 p.2).countP (closesTag t) = 0 := by
  refine List.countP_eq_zero.mpr ?_
  intro c hc
  rcases List.mem_map.mp hc with ⟨p, _, rfl⟩
  simp [closesTag]

theorem countP_opensTag_opens_absent {t : String}
    {d : List (String × List (String × Int))} (h : t ∉ dictKeys d) :
    (d.map fun p => Chunk.openTag p.1 p.2).countP (opensTag t) = 0 := by
  refine List.countP_eq_zero.mpr ?_
  intro c hc
  rcases List.mem_map.mp hc with ⟨p, hp, rfl⟩
  simp only [opensTag]
  intro hpt
  exact h (by
    simp only [dictKeys, List.mem_map]
    exact ⟨p, hp, by simpa using hpt⟩)

theorem countP_closesTag_closes_absent {t : String} {l : List String}
    (h : t ∉ l) : (l.reverse.map Chunk.closeTag).countP (closesTag t) = 0 := by
  refine List.countP_eq_zero.mpr ?_
  intro c hc
  rcases List.mem_map.mp hc with ⟨n, hn, rfl⟩
  simp only [closesTag, decide_eq_true_eq]
  intro hnt
  exact h (hnt ▸ List.mem_reverse.mp hn)

theorem countP_opensTag_outputTags {t : String} {st : SpeakState}
    (h : t ∉ dictKeys st.tags) :
    (outputTags st).textList.countP (opensTag t)
      = st.textList.countP (opensTag t) := by
  by_cases hc : st.tagsChanged
  · simp only [outputTags, hc, if_true, List.countP_append]
    rw [countP_opensTag_closes, countP_opensTag_opens_absent h]
    omega
  · simp [outputTags, hc]

theorem countP_closesTag_outputTags {t : String} {st : SpeakState}
    (h : t ∉ st.openedTags) :
    (outputTags st).textList.countP (closesTag t)
      = st.textList.countP (closesTag t) := by
  by_cases hc : st.tagsChanged
  · simp only [outputTags, hc, if_true, List.countP_append]
    rw [countP_closesTag_opens, countP_closesTag_closes_absent h]
    omega
  · simp [outputTags, hc]

theorem outputTags_openedTags_absent {t : String} {st : SpeakState}
    (h1 : t ∉ dictKeys st.tags) (h2 : t ∉ st.openedTags) :
    t ∉ (outputTags st).openedTags := by
  by_cases hc : st.tagsChanged
  · simpa [outputTags, hc] using h1
  · simpa [outputTags, hc] using h2

/-- Invariant used for claims C5 and C8: the tag `t` is not a key of `tags`,
not an opened tag, and never occurs as an open or close chunk in `textList`
counted from a reference point. -/
theorem tag_absent_step (P : SpeakParams) (st : SpeakState)
    (d : SpeechDirective) (t : String) (hd : canSetTag t d = false)
    (h1 : t ∉ dictKeys st.tags) (h2 : t ∉ st.openedTags) :
    t ∉ dictKeys (processDirective P st d).tags ∧
    t ∉ (processDirective P st d).openedTags ∧
    (processDirective P st d).textList.countP (opensTag t)
      = st.textList.countP (opensTag t) ∧
    (processDirective P st d).textList.countP (closesTag t)
      = st.textList.countP (closesTag t) := by
  cases d with
  | text s =>
    refine ⟨by simpa [processDirective, outputTags_tags] using h1,
      by simpa [processDirective] using outputTags_openedTags_absent h1 h2,
      ?_, ?_⟩ <;>
    simp [processDirective, List.countP_append, opensTag, closesTag,
      countP_opensTag_outputTags h1, countP_closesTag_outputTags h2]
  | index i =>
    exact ⟨h1, h2, by simp [processDirective, List.countP_append, opensTag],
      by simp [processDirective, List.countP_append, closesTag]⟩
  | charMode b =>
    cases b with
    | true =>
      simp only [canSetTag, Bool.true_and, decide_eq_false_iff_not] at hd
      exact ⟨by simpa [processDirective] using
          not_mem_dictKeys_dictSet _ hd h1,
        h2, by simp [processDirective], by simp [processDirective]⟩
    | false =>
      exact ⟨by simpa [processDirective] using
          not_mem_dictKeys_dictDel "spell" h1,
        h2, by simp [processDirective], by simp [processDirective]⟩
  | brk time =>
    exact ⟨h1, h2, by simp [processDirective, List.countP_append, opensTag],
      by simp [processDirective, List.countP_append, closesTag]⟩
  | pitchCmd m =>
    simp only [canSetTag, decide_eq_false_iff_not] at hd
    exact ⟨by simpa [processDirective] using not_mem_dictKeys_dictSet _ hd h1,
      h2, by simp [processDirective], by simp [processDirective]⟩
  | volumeCmd m =>
    by_cases hm : m = 1
    · exact ⟨by simpa [processDirective, hm] using
          not_mem_dictKeys_dictDel "volume" h1,
        by simpa [processDirective, hm] using h2,
        by simp [processDirective, hm], by simp [processDirective, hm]⟩
    · have hd' : t ≠ "volume" := by
        intro hteq
        subst hteq
        simp [canSetTag, hm] at hd
      exact ⟨by simpa [processDirective, hm] using
          not_mem_dictKeys_dictSet _ hd' h1,
        by simpa [processDirective, hm] using h2,
        by simp [processDirective, hm], by simp [processDirective, hm]⟩
  | rateCmd m =>
    by_cases hm : m = 1
    · exact ⟨by simpa [processDirective, hm] using
          not_mem_dictKeys_dictDel "rate" h1,
        by simpa [processDirective, hm] using h2,
        by simp [processDirective, hm], by simp [processDirective, hm]⟩
    · have hd' : t ≠ "rate" := by
        intro hteq
        subst hteq
        simp [canSetTag, hm] at hd
      exact ⟨by simpa [processDirective, hm] using
          not_mem_dictKeys_dictSet _ hd' h1,
        by simpa [processDirective, hm] using h2,
        by simp [processDirective, hm], by simp [processDirective, hm]⟩
  | phoneme ipa txt =>
    refine ⟨?_, ?_, ?_, ?_⟩ <;>
    · simp only [processDirective]
      cases convertPhoneme P.language ipa with
      | none =>
        by_cases ht : txt = "" <;>
          simp [ht, h1, h2, List.countP_append, opensTag, closesTag]
      | some sym =>
        simp [h1, h2, List.countP_append, opensTag, closesTag]
  | otherCommand => exact ⟨h1, h2, rfl, rfl⟩
  | unknown => exact ⟨h1, h2, rfl, rfl⟩

theorem tag_absent_processSeq (P : SpeakParams) (seq : List SpeechDirective)
    (st : SpeakState) (t : String) (hseq : ∀ d ∈ seq, canSetTag t d = false)
    (h1 : t ∉ dictKeys st.tags) (h2 : t ∉ st.openedTags) :
    t ∉ dictKeys (processSeq P st seq).tags ∧
    t ∉ (processSeq P st seq).openedTags ∧
    (processSeq P st seq).textList.countP (opensTag t)
      = st.textList.countP (opensTag t) ∧
    (processSeq P st seq).textList.countP (closesTag t)
      = st.textList.countP (closesTag t) := by
  induction seq generalizing st with
  | nil => exact ⟨h1, h2, rfl, rfl⟩
  | cons d rest ih =>
    obtain ⟨g1, g2, g3, g4⟩ := tag_absent_step P st d t
      (hseq d (List.mem_cons_self d rest)) h1 h2
    obtain ⟨k1, k2, k3, k4⟩ := ih (processDirective P st d)
      (fun d' hd' => hseq d' (List.mem_cons_of_mem d hd')) g1 g2
    exact ⟨k1, k2, k3.trans g3, k4.trans g4⟩

/-- Open-tag occurrences only (the `openedTags` membership side condition is
not required): used for C5, where the `volume` tag may still be open from
before the multiplier-1 command. -/
theorem opens_absent_step (P : SpeakParams) (st : SpeakState)
    (d : SpeechDirective) (t : String) (hd : canSetTag t d = false)
    (h1 : t ∉ dictKeys st.tags) :
    t ∉ dictKeys (processDirective P st d).tags ∧
    (processDirective P st d).textList.countP (opensTag t)
      = st.textList.countP (opensTag t) := by
  cases d with
  | text s =>
    exact ⟨by simpa [processDirective, outputTags_tags] using h1,
      by simp [processDirective, List.countP_append, opensTag,
        countP_opensTag_outputTags h1]⟩
  | index i =>
    exact ⟨h1, by simp [processDirective, List.countP_append, opensTag]⟩
  | charMode b =>
    cases b with
    | true =>
      simp only [canSetTag, Bool.true_and, decide_eq_false_iff_not] at hd
      exact ⟨by simpa [processDirective] using
          not_mem_dictKeys_dictSet _ hd h1, by simp [processDirective]⟩
    | false =>
      exact ⟨by simpa [processDirective] using
          not_mem_dictKeys_dictDel "spell" h1,
        by simp [processDirective]⟩
  | brk time =>
    exact ⟨h1, by simp [processDirective, List.countP_append, opensTag]⟩
  | pitchCmd m =>
    simp only [canSetTag, decide_eq_false_iff_not] at hd
    exact ⟨by simpa [processDirective] using not_mem_dictKeys_dictSet _ hd h1,
      by simp [processDirective]⟩
  | volumeCmd m =>
    by_cases hm : m = 1
    · exact ⟨by simpa [processDirective, hm] using
          not_mem_dictKeys_dictDel "volume" h1,
        by simp [processDirective, hm]⟩
    · have hd' : t ≠ "volume" := by
        intro hteq
        subst hteq
        simp [canSetTag, hm] at hd
      exact ⟨by simpa [processDirective, hm] using
          not_mem_dictKeys_dictSet _ hd' h1, by simp [processDirective, hm]⟩
  | rateCmd m =>
    by_cases hm : m = 1
    · exact ⟨by simpa [processDirective, hm] using
          not_mem_dictKeys_dictDel "rate" h1,
        by simp [processDirective, hm]⟩
    · have hd' : t ≠ "rate" := by
        intro hteq
        subst hteq
        simp [canSetTag, hm] at hd
      exact ⟨by simpa [processDirective, hm] using
          not_mem_dictKeys_dictSet _ hd' h1, by simp [processDirective, hm]⟩
  | phoneme ipa txt =>
    refine ⟨?_, ?_⟩ <;>
    · simp only [processDirective]
      cases convertPhoneme P.language ipa with
      | none =>
        by_cases ht : txt = "" <;>
          simp [ht, h1, List.countP_append, opensTag]
      | some sym => simp [h1, List.countP_append, opensTag]
  | otherCommand => exact ⟨h1, rfl⟩
  | unknown => exact ⟨h1, rfl⟩

theorem opens_absent_processSeq (P : SpeakParams) (seq : List SpeechDirective)
    (st : SpeakState) (t : String) (hseq : ∀ d ∈ seq, canSetTag t d = false)
    (h1 : t ∉ dictKeys st.tags) :
    t ∉ dictKeys (processSeq P st seq).tags ∧
    (processSeq P st seq).textList.countP (opensTag t)
      = st.textList.countP (opensTag t) := by
  induction seq generalizing st with
  | nil => exact ⟨h1, rfl⟩
  | cons d rest ih =>
    obtain ⟨g1, g2⟩ := opens_absent_step P st d t
      (hseq d (List.mem_cons_self d rest)) h1
    obtain ⟨k1, k2⟩ := ih (processDirective P st d)
      (fun d' hd' => hseq d' (List.mem_cons_of_mem d hd')) g1
    exact ⟨k1, k2.trans g2⟩

/-- The forced final flush of `speak` (lines 392-395) applied to the state
after the loop. -/
def finalFlush (st : SpeakState) : List Chunk :=
  (outputTags { st with tags := [], tagsChanged := true }).textList

theorem speakChunks_eq_finalFlush (P : SpeakParams)
    (seq : List SpeechDirective) :
    speakChunks P seq = finalFlush (processSeq P (initState P) seq) := rfl

theorem countP_opensTag_finalFlush (t : String) (st : SpeakState) :
    (finalFlush st).countP (opensTag t) = st.textList.countP (opensTag t) := by
  have h : t ∉ dictKeys (SpeakState.tags
      { st with tags := [], tagsChanged := true }) := by
    simp [dictKeys]
  simpa [finalFlush] using countP_opensTag_outputTags h

theorem countP_closesTag_finalFlush {t : String} {st : SpeakState}
    (h : t ∉ st.openedTags) :
    (finalFlush st).countP (closesTag t)
      = st.textList.countP (closesTag t) := by
  have h' : t ∉ (SpeakState.openedTags
      { st with tags := [], tagsChanged := true }) := h
  simpa [finalFlush] using countP_closesTag_outputTags h'

/-!  ## Claim theorems: hooks and pure conversions  -/

/-- C6. `percentToPitch` and `percentToRate` are (deterministic, pure) Lean
functions satisfying `percentToPitch p = p // 2 - 25` and
`percentToRate p = (p - 50) // 5` with floor (integer) division, and in
particular `percentToPitch 50 = 0`, `percentToRate 50 = 0`,
`percentToRate 100 = 10`. -/
theorem percent_conversions_correct :
    (∀ p : Int, percentToPitch p = p.fdiv 2 - 25) ∧
    (∀ p : Int, percentToRate p = (p - 50).fdiv 5) ∧
    percentToPitch 50 = 0 ∧ percentToRate 50 = 0 ∧ percentToRate 100 = 10 :=
  ⟨fun _ => rfl, fun _ => rfl, by decide, by decide, by decide⟩

/-- C2. `ensureWaveOutHooks` is idempotent: when ducking is unsupported no
call installs anything; from the initial empty hook state a supported call
installs exactly the two hooks, over `waveOutOpen` and `waveOutClose`; any
call finding the hook list non-empty installs nothing — in particular every
call after the first installs nothing. -/
theorem ensureWaveOutHooks_idempotent :
    (∀ st : HookState, ensureWaveOutHooks false st = (st, [])) ∧
    (ensureWaveOutHooks true ⟨[]⟩ =
      (⟨[⟨"waveOutOpen"⟩, ⟨"waveOutClose"⟩]⟩,
        [⟨"waveOutOpen"⟩, ⟨"waveOutClose"⟩])) ∧
    (∀ (b : Bool) (st : HookState), st.waveOutHooks ≠ [] →
      ensureWaveOutHooks b st = (st, [])) ∧
    (∀ b : Bool,
      (ensureWaveOutHooks b (ensureWaveOutHooks true ⟨[]⟩).1).2 = []) := by
  refine ⟨fun st => by simp [ensureWaveOutHooks], rfl,
    fun b st h => by simp [ensureWaveOutHooks, h], fun b => by
      simp [ensureWaveOutHooks]⟩

/-- Witness for C2: a second call on the state produced by the first
installs nothing. -/
theorem ensureWaveOutHooks_idempotent_witness :
    ensureWaveOutHooks true ⟨[⟨"waveOutOpen"⟩, ⟨"waveOutClose"⟩]⟩ =
      (⟨[⟨"waveOutOpen"⟩, ⟨"waveOutClose"⟩]⟩, []) :=
  ensureWaveOutHooks_idempotent.2.2.1 true
    ⟨[⟨"waveOutOpen"⟩, ⟨"waveOutClose"⟩]⟩ (by decide)

/-- C3. The intercepted open: when the real open raises a system error, the
hook returns the error code as a plain status value (the hook is a total
function, so no exception crosses the boundary); the returned status never
depends on the outcome of the ducking `enable()` attempt; and when the real
open returns success with a valid handle pointer, the status is returned
unchanged and the handle is recorded in the registry with its session,
whether or not enabling succeeded. -/
theorem waveOutOpen_hook_behaviour :
    (∀ (code : Int) (p : Option Int) (e : Bool) (reg : DuckerRegistry),
      (waveOutOpenHook (.raisesWinError code) p e reg).1 = code) ∧
    (∀ (r : RealCallResult) (p : Option Int) (e e' : Bool)
        (reg : DuckerRegistry),
      (waveOutOpenHook r p e reg).1 = (waveOutOpenHook r p e' reg).1) ∧
    (∀ (h : Int) (e : Bool) (reg : DuckerRegistry),
      (waveOutOpenHook (.returns 0) (some h) e reg).1 = 0 ∧
      dictGet h (waveOutOpenHook (.returns 0) (some h) e reg).2 =
        some ⟨e⟩) := by
  refine ⟨fun code p e reg => ?_, fun r p e e' reg => ?_,
    fun h e reg => ⟨?_, ?_⟩⟩
  · cases p with
    | none => rfl
    | some h =>
      by_cases hs : (RealCallResult.raisesWinError code).status = 0 <;>
        simp [waveOutOpenHook, hs, RealCallResult.status] at hs ⊢ <;>
        simp [hs]
  · cases p with
    | none => rfl
    | some h =>
      by_cases hs : r.status = 0 <;> simp [waveOutOpenHook, hs]
  · simp [waveOutOpenHook, RealCallResult.status]
  · simp [waveOutOpenHook, RealCallResult.status, dictGet_dictSet]

/-- C4. The intercepted close: on success it removes the registry entry for
the handle; removal of a non-existent entry is a silent no-op (same status,
registry untouched); closing the same handle twice yields no error the second
time (the second close returns status 0 and leaves the registry as the first
left it); opening two different handles and closing both in reverse order
leaves the registry empty. -/
theorem waveOutClose_hook_behaviour :
    (∀ (h : Int) (reg : DuckerRegistry), h ∉ dictKeys reg →
      waveOutCloseHook (.returns 0) h reg = (0, reg)) ∧
    (∀ (h : Int) (reg : DuckerRegistry), (dictKeys reg).Nodup →
      waveOutCloseHook (.returns 0) h
          (waveOutCloseHook (.returns 0) h reg).2 =
        (0, (waveOutCloseHook (.returns 0) h reg).2)) ∧
    (∀ (h₁ h₂ : Int) (e₁ e₂ : Bool), h₁ ≠ 0 → h₂ ≠ 0 → h₁ ≠ h₂ →
      (waveOutCloseHook (.returns 0) h₁
        (waveOutCloseHook (.returns 0) h₂
          (waveOutOpenHook (.returns 0) (some h₂) e₂
            (waveOutOpenHook (.returns 0) (some h₁) e₁ []).2).2).2).2 = []) := by
  refine ⟨fun h reg hmem => ?_, fun h reg hnd => ?_,
    fun h₁ h₂ e₁ e₂ h1 h2 hne => ?_⟩
  · by_cases hz : h = 0 <;>
      simp [waveOutCloseHook, RealCallResult.status, hz,
        dictDel_of_not_mem hmem]
  · by_cases hz : h = 0
    · simp [waveOutCloseHook, RealCallResult.status, hz]
    · have hnotin := dictKeys_dictDel_nodup h hnd
      simp [waveOutCloseHook, RealCallResult.status, hz,
        dictDel_of_not_mem hnotin]
  · simp [waveOutOpenHook, waveOutCloseHook, RealCallResult.status,
      dictSet, dictDel, h1, h2, hne, Ne.symm hne]

/-- Witness for C4: handle 5 absent from the empty registry is a no-op;
open 1, open 2, close 2, close 1 empties the registry. -/
theorem waveOutClose_hook_behaviour_witness :
    waveOutCloseHook (.returns 0) 5 [] = (0, []) ∧
    (waveOutCloseHook (.returns 0) 1
      (waveOutCloseHook (.returns 0) 2
        (waveOutOpenHook (.returns 0) (some 2) false
          (waveOutOpenHook (.returns 0) (some 1) true []).2).2).2).2 = [] :=
  ⟨waveOutClose_hook_behaviour.1 5 [] (by decide),
    waveOutClose_hook_behaviour.2.2 1 2 true false (by decide) (by decide)
      (by decide)⟩

/-!  ## Claim theorems: the markup sequence compiler  -/

theorem tagsChanged_preserved_step (P : SpeakParams) (st : SpeakState)
    (d : SpeechDirective) (hd : isStateChanging d = false)
    (h : st.tagsChanged = false) :
    (processDirective P st d).tagsChanged = false := by
  cases d with
  | text s => exact processDirective_text_tagsChanged P st s
  | index i => exact h
  | charMode b => simp [isStateChanging] at hd
  | brk t => exact h
  | pitchCmd m => simp [isStateChanging] at hd
  | volumeCmd m => simp [isStateChanging] at hd
  | rateCmd m => simp [isStateChanging] at hd
  | phoneme ipa txt =>
    simp only [processDirective]
    cases convertPhoneme P.language ipa with
    | none => by_cases ht : txt = "" <;> simp [ht, h]
    | some sym => exact h
  | otherCommand => exact h
  | unknown => exact h

theorem tagsChanged_preserved_processSeq (P : SpeakParams)
    (seq : List SpeechDirective) (st : SpeakState)
    (hseq : ∀ d ∈ seq, isStateChanging d = false)
    (h : st.tagsChanged = false) :
    (processSeq P st seq).tagsChanged = false := by
  induction seq generalizing st with
  | nil => exact h
  | cons d rest ih =>
    exact ih _ (fun d' hd' => hseq d' (List.mem_cons_of_mem d hd'))
      (tagsChanged_preserved_step P st d (hseq d (List.mem_cons_self d rest)) h)

/-- C7. Two plain-text directives separated only by directives that do not
mutate the tag state (and in particular two consecutive ones, `mid = []`)
cause no tag re-emission: processing the second text appends exactly its
escaped literal to the output, with no close/open pair, because the flush
before literal text runs only when the dirty flag is set and the first text's
flush cleared that flag. -/
theorem no_redundant_tags_between_texts (P : SpeakParams) (st : SpeakState)
    (a b : String) (mid : List SpeechDirective)
    (hmid : ∀ d ∈ mid, isStateChanging d = false) :
    (processSeq P st (.text a :: (mid ++ [.text b]))).textList
      = (processSeq P st (.text a :: mid)).textList
        ++ [Chunk.literal (escapeLt b)] := by
  have hsplit : processSeq P st (.text a :: (mid ++ [.text b]))
      = processDirective P (processSeq P st (.text a :: mid)) (.text b) := by
    show processSeq P st ((.text a :: mid) ++ [.text b]) = _
    simp [processSeq, List.foldl_append]
  have hflag : (processSeq P st (.text a :: mid)).tagsChanged = false := by
    show (processSeq P (processDirective P st (.text a)) mid).tagsChanged
      = false
    exact tagsChanged_preserved_processSeq P mid _ hmid
      (processDirective_text_tagsChanged P st a)
  rw [hsplit]
  simp only [processDirective]
  rw [outputTags_of_not_changed hflag]

/-- Witness for C7: two consecutive plain texts from the initial state of a
default parameter set. -/
theorem no_redundant_tags_between_texts_witness :
    (processSeq ⟨50, 50, 60, "409"⟩ (initState ⟨50, 50, 60, "409"⟩)
        (.text "x" :: ([] ++ [.text "y"]))).textList
      = (processSeq ⟨50, 50, 60, "409"⟩ (initState ⟨50, 50, 60, "409"⟩)
          (.text "x" :: [])).textList
        ++ [Chunk.literal (escapeLt "y")] :=
  no_redundant_tags_between_texts ⟨50, 50, 60, "409"⟩
    (initState ⟨50, 50, 60, "409"⟩) "x" "y" [] (by simp)

/-- C5. A volume multiplier of exactly 1 removes the volume override (no
`volume` entry remains in the tag state, even directly after a multiplier-2
command), so no volume open tag is emitted in any subsequent output while no
later volume command with multiplier other than 1 occurs; a multiplier other
than 1 sets a `volume` tag whose `level` attribute is `baselineVolume *
multiplier` converted to an integer (Python `int()`, truncation toward
zero). -/
theorem volume_override_semantics (P : SpeakParams) (st : SpeakState) :
    (∀ m : ℚ, m ≠ 1 →
      dictGet "volume" (processDirective P st (.volumeCmd m)).tags
        = some [("level", pyInt (P.volume * m))]) ∧
    ((dictKeys st.tags).Nodup →
      dictGet "volume" (processDirective P st (.volumeCmd 1)).tags = none ∧
      dictGet "volume" (processDirective P
        (processDirective P st (.volumeCmd 2)) (.volumeCmd 1)).tags = none) ∧
    (∀ (pre post : List SpeechDirective),
      (∀ d ∈ post, canSetTag "volume" d = false) →
      (speakChunks P ((pre ++ [.volumeCmd 2, .volumeCmd 1]) ++ post)).countP
          (opensTag "volume")
        = (processSeq P (initState P)
            (pre ++ [.volumeCmd 2, .volumeCmd 1])).textList.countP
            (opensTag "volume")) := by
  refine ⟨fun m hm => ?_, fun hnd => ⟨?_, ?_⟩, fun pre post hpost => ?_⟩
  · simp [processDirective, hm, dictGet_dictSet]
  · have habs := dictKeys_dictDel_nodup "volume" hnd
    simpa [processDirective] using dictGet_of_not_mem habs
  · have hnd2 : (dictKeys (processDirective P st (.volumeCmd 2)).tags).Nodup :=
      processDirective_tags_nodup P st _ hnd
    have habs := dictKeys_dictDel_nodup "volume" hnd2
    simpa [processDirective] using dictGet_of_not_mem habs
  · have hnd1 : (dictKeys (processSeq P (initState P) pre).tags).Nodup := by
      refine processSeq_tags_nodup P pre _ ?_
      simp [initState, dictKeys]
    have hmid : processSeq P (initState P) (pre ++ [.volumeCmd 2, .volumeCmd 1])
        = processDirective P (processDirective P
            (processSeq P (initState P) pre) (.volumeCmd 2)) (.volumeCmd 1) := by
      simp [processSeq, List.foldl_append]
    have habs : "volume" ∉ dictKeys (processSeq P (initState P)
        (pre ++ [.volumeCmd 2, .volumeCmd 1])).tags := by
      rw [hmid]
      have hnd2 : (dictKeys (processDirective P (processSeq P (initState P) pre)
          (.volumeCmd 2)).tags).Nodup :=
        processDirective_tags_nodup P _ _ hnd1
      have h21 : (2 : ℚ) ≠ 1 := by norm_num
      simpa [processDirective] using
        dictKeys_dictDel_nodup "volume" hnd2
    have hsplit : processSeq P (initState P)
        ((pre ++ [.volumeCmd 2, .volumeCmd 1]) ++ post)
        = processSeq P (processSeq P (initState P)
            (pre ++ [.volumeCmd 2, .volumeCmd 1])) post := by
      simp [processSeq, List.foldl_append]
    obtain ⟨_, hcount⟩ := opens_absent_processSeq P post
      (processSeq P (initState P) (pre ++ [.volumeCmd 2, .volumeCmd 1]))
      "volume" hpost habs
    rw [speakChunks_eq_finalFlush, countP_opensTag_finalFlush, hsplit, hcount]

/-- Witness for C5: volume 2 then volume 1 from the initial state, followed
by a text, emits no volume tag at all. -/
theorem volume_override_semantics_witness :
    dictGet "volume"
        (processDirective ⟨50, 50, 60, "409"⟩
          (initState ⟨50, 50, 60, "409"⟩) (.volumeCmd 2)).tags
      = some [("level", pyInt ((60 : ℚ) * 2))] ∧
    (speakChunks ⟨50, 50, 60, "409"⟩
        (([] ++ [.volumeCmd 2, .volumeCmd 1]) ++ [.text "t"])).countP
        (opensTag "volume")
      = (processSeq ⟨50, 50, 60, "409"⟩ (initState ⟨50, 50, 60, "409"⟩)
          ([] ++ [.volumeCmd 2, .volumeCmd 1])).textList.countP
          (opensTag "volume") :=
  ⟨(volume_override_semantics ⟨50, 50, 60, "409"⟩
      (initState ⟨50, 50, 60, "409"⟩)).1 2 (by norm_num),
    (volume_override_semantics ⟨50, 50, 60, "409"⟩
      (initState ⟨50, 50, 60, "409"⟩)).2.2 [] [.text "t"] (by
        intro d hd
        simp only [List.mem_singleton] at hd
        subst hd
        rfl)⟩

/-- C8. A `CharacterModeToggle(true)` immediately followed by
`CharacterModeToggle(false)` is a net no-op on the tag state, disabling
character mode when no `spell` tag is present is a plain no-op rather than an
error, and in a sequence whose other directives never enable character mode,
the toggle pair leaves no `spell` tag (open or close) anywhere in the final
output. -/
theorem charMode_toggle_noop (P : SpeakParams) (st : SpeakState) :
    ("spell" ∉ dictKeys st.tags →
      processDirective P st (.charMode false) = { st with tagsChanged := true } ∧
      (processDirective P (processDirective P st (.charMode true))
        (.charMode false)).tags = st.tags) ∧
    (∀ (pre post : List SpeechDirective),
      (∀ d ∈ pre, canSetTag "spell" d = false) →
      (∀ d ∈ post, canSetTag "spell" d = false) →
      (speakChunks P ((pre ++ [.charMode true, .charMode false]) ++ post)).countP
          (opensTag "spell") = 0 ∧
      (speakChunks P ((pre ++ [.charMode true, .charMode false]) ++ post)).countP
          (closesTag "spell") = 0) := by
  constructor
  · intro habs
    constructor
    · simp [processDirective, dictDel_of_not_mem habs]
    · simp [processDirective, dictDel_dictSet_of_not_mem _ habs]
  · intro pre post hpre hpost
    obtain ⟨p1, p2, p3, p4⟩ := tag_absent_processSeq P pre (initState P)
      "spell" hpre (by simp [initState, dictKeys]) (by simp [initState])
    have hmid : processSeq P (initState P)
        (pre ++ [.charMode true, .charMode false])
        = processDirective P (processDirective P
            (processSeq P (initState P) pre) (.charMode true))
            (.charMode false) := by
      simp [processSeq, List.foldl_append]
    set st1 := processSeq P (initState P) pre with hst1
    have hpair : processDirective P (processDirective P st1 (.charMode true))
        (.charMode false)
        = { st1 with tags := st1.tags, tagsChanged := true } := by
      simp [processDirective, dictDel_dictSet_of_not_mem _ p1]
    obtain ⟨q1, q2, q3, q4⟩ := tag_absent_processSeq P post
      (processSeq P (initState P) (pre ++ [.charMode true, .charMode false]))
      "spell" hpost (by rw [hmid, hpair]; exact p1)
      (by rw [hmid, hpair]; exact p2)
    have hsplit : processSeq P (initState P)
        ((pre ++ [.charMode true, .charMode false]) ++ post)
        = processSeq P (processSeq P (initState P)
            (pre ++ [.charMode true, .charMode false])) post := by
      simp [processSeq, List.foldl_append]
    have htext : (processSeq P (initState P)
        (pre ++ [.charMode true, .charMode false])).textList = st1.textList := by
      rw [hmid, hpair]
    constructor
    · rw [speakChunks_eq_finalFlush, countP_opensTag_finalFlush, hsplit, q3,
        htext, p3]
      simp [initState]
    · rw [speakChunks_eq_finalFlush, hsplit, countP_closesTag_finalFlush q2,
        q4, htext, p4]
      simp [initState]

/-- Witness for C8: the toggle pair alone produces output with no spell
tag, and disabling character mode on the initial state is a no-op. -/
theorem charMode_toggle_noop_witness :
    processDirective ⟨50, 50, 60, "409"⟩ (initState ⟨50, 50, 60, "409"⟩)
        (.charMode false)
      = { initState ⟨50, 50, 60, "409"⟩ with tagsChanged := true } ∧
    (speakChunks ⟨50, 50, 60, "409"⟩
        (([] ++ [.charMode true, .charMode false]) ++ [.text "x"])).countP
        (opensTag "spell") = 0 :=
  ⟨((charMode_toggle_noop ⟨50, 50, 60, "409"⟩
      (initState ⟨50, 50, 60, "409"⟩)).1 (by decide)).1,
    ((charMode_toggle_noop ⟨50, 50, 60, "409"⟩
      (initState ⟨50, 50, 60, "409"⟩)).2 [] [.text "x"] (by simp) (by
        intro d hd
        simp only [List.mem_singleton] at hd
        subst hd
        rfl)).1⟩

/-!  ## Claim theorems: phoneme conversion  -/

theorem convertPhonemeLoop_append (st : List String × Option String)
    (l1 l2 : List Char) :
    convertPhonemeLoop st (l1 ++ l2)
      = (convertPhonemeLoop st l1).bind
          fun st' => convertPhonemeLoop st' l2 := by
  induction l1 generalizing st with
  | nil => simp [convertPhonemeLoop]
  | cons c rest ih =>
    obtain ⟨out, outAfter⟩ := st
    by_cases hc : c = 'ˈ'
    · simp [convertPhonemeLoop, hc, ih]
    · cases ht : IPA_TO_SAPI c with
      | none => simp [convertPhonemeLoop, hc, ht]
      | some tok => simp [convertPhonemeLoop, hc, ht, ih]

theorem convertPhoneme_append_stress (ipa : List Char) :
    convertPhoneme "409" (ipa ++ ['ˈ'])
      = (convertPhonemeLoop ([], none) ipa).map
          fun st' => String.intercalate " " (st'.1 ++ ["1"]) := by
  rw [convertPhoneme, if_neg (by simp), convertPhonemeLoop_append]
  cases convertPhonemeLoop ([], none) ipa with
  | none => rfl
  | some st' =>
    obtain ⟨out, outAfter⟩ := st'
    simp [convertPhonemeLoop]

/-- C10. A stress marker with no further translatable symbol after it — an
IPA string ending in the stress marker — is not dropped: the numeric stress
suffix `"1"` is still appended as its own final space-separated token of the
translated string, as in `convertPhoneme "409" "sˈ" = "s 1"`. -/
theorem stress_marker_kept_at_end :
    (∀ (ipa : List Char) (s : String),
      convertPhoneme "409" (ipa ++ ['ˈ']) = some s →
      ∃ out, s = String.intercalate " " (out ++ ["1"])) ∧
    convertPhoneme "409" ['s', 'ˈ'] = some "s 1" := by
  constructor
  · intro ipa s hs
    rw [convertPhoneme_append_stress] at hs
    cases hl : convertPhonemeLoop ([], none) ipa with
    | none => rw [hl] at hs; simp at hs
    | some st' =>
      rw [hl] at hs
      exact ⟨st'.1, by simpa using hs.symm⟩
  · decide

/-- Witness for C10: the theorem applied to the one-phoneme string `sˈ`. -/
theorem stress_marker_kept_at_end_witness :
    ∃ out, ("s 1" : String) = String.intercalate " " (out ++ ["1"]) :=
  stress_marker_kept_at_end.1 ['s'] "s 1" (by decide)

/-- C9. Phoneme translation never raises out of `speak`: a voice language
other than `"409"` makes the translation fail, and any failed translation
(also one caused by an untranslatable symbol) makes the directive emit its
plain-text fallback as literal text — or nothing when the fallback is empty;
in particular an untranslatable symbol with fallback `"cat"` renders the
literal string `"cat"`. -/
theorem phoneme_fallback_no_raise :
    (∀ (lang : String) (ipa : List Char), lang ≠ "409" →
      convertPhoneme lang ipa = none) ∧
    (∀ (P : SpeakParams) (st : SpeakState) (ipa : List Char) (txt : String),
      convertPhoneme P.language ipa = none →
      (processDirective P st (.phoneme ipa txt)).textList
        = st.textList ++ (if txt = "" then [] else [Chunk.fallbackText txt])) ∧
    speakText ⟨50, 50, 60, "409"⟩ [.phoneme ['k'] "cat"] = "cat" := by
  refine ⟨fun lang ipa h => by simp [convertPhoneme, h],
    fun P st ipa txt h => ?_, by decide⟩
  simp only [processDirective, h]
  by_cases ht : txt = "" <;> simp [ht]

/-- Witness for C9: the untranslatable symbol `k` with fallback `"cat"`
appends exactly the fallback literal. -/
theorem phoneme_fallback_no_raise_witness :
    (processDirective ⟨50, 50, 60, "409"⟩ (initState ⟨50, 50, 60, "409"⟩)
        (.phoneme ['k'] "cat")).textList
      = (initState ⟨50, 50, 60, "409"⟩).textList
        ++ (if ("cat" : String) = "" then [] else [Chunk.fallbackText "cat"]) :=
  phoneme_fallback_no_raise.2.1 ⟨50, 50, 60, "409"⟩
    (initState ⟨50, 50, 60, "409"⟩) ['k'] "cat" (by decide)

/-!  ## Well-formedness of the emitted markup (claim C1)

A chunk stream is well-formed when running it against a tag stack succeeds:
an open tag pushes its name, a close tag must match the innermost open tag
and pops it (so closes occur in exact reverse order of the unmatched opens),
and the run from the empty stack ends with the empty stack.  -/

/-- Stack interpreter over a chunk stream. `runTags l [] = some []` states
that the tags of `l` are balanced and properly nested. -/
def runTags : List Chunk → List String → Option (List String)
  | [], stack => some stack
  | Chunk.openTag n _ :: rest, stack => runTags rest (n :: stack)
  | Chunk.closeTag n :: rest, stack =>
    match stack with
    | [] => none
    | m :: s => if m = n then runTags rest s else none
  | Chunk.literal _ :: rest, stack => runTags rest stack
  | Chunk.bookmark _ :: rest, stack => runTags rest stack
  | Chunk.silence _ :: rest, stack => runTags rest stack
  | Chunk.pron _ _ :: rest, stack => runTags rest stack
  | Chunk.fallbackText _ :: rest, stack => runTags rest stack

theorem runTags_append (l₁ l₂ : List Chunk) (s : List String) :
    runTags (l₁ ++ l₂) s = (runTags l₁ s).bind fun s' => runTags l₂ s' := by
  induction l₁ generalizing s with
  | nil => simp [runTags]
  | cons c rest ih =>
    cases c with
    | openTag n attrs => simp [runTags, ih]
    | closeTag n =>
      cases s with
      | nil => simp [runTags]
      | cons m s' => by_cases h : m = n <;> simp [runTags, h, ih]
    | literal s₀ => simp [runTags, ih]
    | bookmark i => simp [runTags, ih]
    | silence t => simp [runTags, ih]
    | pron sym txt => simp [runTags, ih]
    | fallbackText s₀ => simp [runTags, ih]

theorem runTags_closes (l s : List String) :
    runTags (l.map Chunk.closeTag) (l ++ s) = some s := by
  induction l with
  | nil => simp [runTags]
  | cons a l' ih => simp [runTags, ih]

theorem runTags_opens (d : List (String × List (String × Int)))
    (s : List String) :
    runTags (d.map fun p => Chunk.openTag p.1 p.2) s
      = some ((dictKeys d).reverse ++ s) := by
  induction d generalizing s with
  | nil => simp [runTags, dictKeys]
  | cons p d' ih => simp [runTags, dictKeys, ih]

/-- Loop invariant for C1: the chunks emitted so far are balanced except for
the currently opened tags, innermost first. -/
def StackInv (st : SpeakState) : Prop :=
  runTags st.textList [] = some st.openedTags.reverse

theorem stackInv_outputTags {st : SpeakState} (h : StackInv st) :
    StackInv (outputTags st) := by
  by_cases hc : st.tagsChanged
  · unfold StackInv at h ⊢
    simp only [outputTags, hc, if_true]
    rw [runTags_append, runTags_append, h]
    simp only [Option.some_bind]
    have hcl := runTags_closes st.openedTags.reverse []
    rw [List.append_nil] at hcl
    rw [hcl]
    simp [runTags_opens]
  · simpa [outputTags, hc] using h

theorem stackInv_step (P : SpeakParams) (st : SpeakState)
    (d : SpeechDirective) (h : StackInv st) :
    StackInv (processDirective P st d) := by
  cases d with
  | text s =>
    have h' := stackInv_outputTags h
    unfold StackInv at h' ⊢
    simp only [processDirective]
    rw [runTags_append, h']
    simp [runTags]
  | index i =>
    unfold StackInv at h ⊢
    simp only [processDirective]
    rw [runTags_append, h]
    simp [runTags]
  | charMode b =>
    cases b <;> exact h
  | brk t =>
    unfold StackInv at h ⊢
    simp only [processDirective]
    rw [runTags_append, h]
    simp [runTags]
  | pitchCmd m => exact h
  | volumeCmd m =>
    by_cases hm : m = 1 <;> simp only [processDirective, hm] <;> simpa using h
  | rateCmd m =>
    by_cases hm : m = 1 <;> simp only [processDirective, hm] <;> simpa using h
  | phoneme ipa txt =>
    unfold StackInv at h ⊢
    simp only [processDirective]
    cases convertPhoneme P.language ipa with
    | none =>
      by_cases ht : txt = ""
      · simpa [ht] using h
      · simp only [ht, if_true, ne_eq, not_false_iff]
        rw [runTags_append, h]
        simp [runTags]
    | some sym =>
      rw [runTags_append, h]
      simp [runTags]
  | otherCommand => exact h
  | unknown => exact h

theorem stackInv_processSeq (P : SpeakParams) (seq : List SpeechDirective)
    (st : SpeakState) (h : StackInv st) : StackInv (processSeq P st seq) := by
  induction seq generalizing st with
  | nil => exact h
  | cons d rest ih => exact ih _ (stackInv_step P st d h)

/-- Accounting along a successful stack run: opens of a name, plus its
occurrences on the starting stack, equal closes plus its occurrences on the
final stack. -/
theorem runTags_count (l : List Chunk) (s s' : List String)
    (h : runTags l s = some s') (n : String) :
    l.countP (opensTag n) + s.count n = l.countP (closesTag n) + s'.count n := by
  induction l generalizing s with
  | nil =>
    simp only [runTags, Option.some_inj] at h
    subst h
    simp
  | cons c rest ih =>
    cases c with
    | openTag m attrs =>
      simp only [runTags] at h
      have hrec := ih (m :: s) h
      have hmc : (m :: s).count n = s.count n + (if m = n then 1 else 0) := by
        by_cases hm : m = n <;> simp [List.count_cons, hm]
      have hoc : (Chunk.openTag m attrs :: rest).countP (opensTag n)
          = rest.countP (opensTag n) + (if m = n then 1 else 0) := by
        by_cases hm : m = n <;> simp [List.countP_cons, opensTag, hm]
      have hcc : (Chunk.openTag m attrs :: rest).countP (closesTag n)
          = rest.countP (closesTag n) := by
        simp [List.countP_cons, closesTag]
      rw [hoc, hcc]
      rw [hmc] at hrec
      omega
    | closeTag m =>
      cases s with
      | nil => simp [runTags] at h
      | cons t s₂ =>
        simp only [runTags] at h
        by_cases htm : t = m
        · rw [if_pos htm] at h
          subst htm
          have hrec := ih s₂ h
          have hmc : (t :: s₂).count n
              = s₂.count n + (if t = n then 1 else 0) := by
            by_cases hm : t = n <;> simp [List.count_cons, hm]
          have hcc : (Chunk.closeTag t :: rest).countP (closesTag n)
              = rest.countP (closesTag n) + (if t = n then 1 else 0) := by
            by_cases hm : t = n <;> simp [List.countP_cons, closesTag, hm]
          have hoc : (Chunk.closeTag t :: rest).countP (opensTag n)
              = rest.countP (opensTag n) := by
            simp [List.countP_cons, opensTag]
          rw [hoc, hcc, hmc]
          omega
        · rw [if_neg htm] at h
          exact absurd h (by simp)
    | literal s₀ =>
      have hrec := ih s h
      simpa [List.countP_cons, opensTag, closesTag] using hrec
    | bookmark i =>
      have hrec := ih s h
      simpa [List.countP_cons, opensTag, closesTag] using hrec
    | silence t =>
      have hrec := ih s h
      simpa [List.countP_cons, opensTag, closesTag] using hrec
    | pron sym txt =>
      have hrec := ih s h
      simpa [List.countP_cons, opensTag, closesTag] using hrec
    | fallbackText s₀ =>
      have hrec := ih s h
      simpa [List.countP_cons, opensTag, closesTag] using hrec

/-- C1. For every baseline parameter set and every directive sequence, the
chunk stream of `speak` is well-formed markup: running the tag stack from
empty succeeds and ends empty (every close matches the innermost unmatched
open, so within each flush closes occur in exact reverse order of the opens
they close, and after the forced final flush no tag is left open), and for
every tag name the number of opens equals the number of closes. -/
theorem speak_markup_balanced (P : SpeakParams) (seq : List SpeechDirective) :
    runTags (speakChunks P seq) [] = some [] ∧
    ∀ n : String, (speakChunks P seq).countP (opensTag n)
      = (speakChunks P seq).countP (closesTag n) := by
  have hinit : StackInv (initState P) := by
    simp [StackInv, initState, runTags]
  have hloop := stackInv_processSeq P seq (initState P) hinit
  set st := processSeq P (initState P) seq with hst
  have hfin : StackInv { st with tags := [], tagsChanged := true } := hloop
  have hflush := stackInv_outputTags hfin
  have hrun : runTags (speakChunks P seq) [] = some [] := by
    have hopened :
        (outputTags { st with tags := [], tagsChanged := true }).openedTags
          = [] := by
      simp [outputTags, dictKeys]
    unfold StackInv at hflush
    rw [hopened] at hflush
    exact hflush
  refine ⟨hrun, fun n => ?_⟩
  have := runTags_count (speakChunks P seq) [] [] hrun n
  simpa using this

end Sapi5
